import Mathlib

/-!
Shallow embedding of the fileio library (src/fileio.js) and proofs about
its cache/timer engine, option resolution, read/write/append/appendFile
operations and the recursive directory-creation walk.
-/

namespace FileioModel

/-- Resolved options record, mirroring the four fields of
`File.defaultOptions` (src/fileio.js lines 65-70): `cache`, `expires`,
`fromCache`, `resetTimer`.  `expires` is a JS number of milliseconds,
modelled as an integer. -/
structure OptionsRecord where
  cache : Bool
  expires : Int
  fromCache : Bool
  resetTimer : Bool
deriving Repr, DecidableEq

/-- The default option values inherited by every File object
(src/fileio.js lines 65-70). -/
def defaultOptions : OptionsRecord :=
  { cache := false, expires := 0, fromCache := false, resetTimer := true }

/-- A caller-supplied options object: each field may be present or absent.
Only the four recognised keys are modelled; `Object.keys` overlay of other
keys has no observable effect on the resolved record. -/
structure PartialOptions where
  cache : Option Bool
  expires : Option Int
  fromCache : Option Bool
  resetTimer : Option Bool
deriving Repr, DecidableEq

/-- A call-site options argument: a raw number, a raw boolean, an object,
or `undefined` (argument omitted). -/
inductive OptArg where
  | num : Int → OptArg
  | boolean : Bool → OptArg
  | obj : PartialOptions → OptArg
  | undef : OptArg
deriving Repr, DecidableEq

/-- Field-by-field overlay of an object's own keys over a base record,
mirroring the `Object.keys` loop of `inspectOptions`
(src/fileio.js lines 22-27). -/
def overlay (p : PartialOptions) (base : OptionsRecord) : OptionsRecord :=
  { cache := p.cache.getD base.cache
    expires := p.expires.getD base.expires
    fromCache := p.fromCache.getD base.fromCache
    resetTimer := p.resetTimer.getD base.resetTimer }

/-- The `inspectOptions` resolver (src/fileio.js lines 14-30).  The base
record is the clone of the handle's `defaults` (File case) or
`fileOptions` (Directory case); the caller passes it in.  A number sets
`expires` and forces `cache := true`; a boolean sets `cache`; an object is
overlaid key by key; `undefined` leaves the clone untouched. -/
def inspectOptions : OptArg → OptionsRecord → OptionsRecord
  | .num n, base => { base with expires := n, cache := true }
  | .boolean b, base => { base with cache := b }
  | .obj p, base => overlay p base
  | .undef, base => base

/-- JavaScript truthiness of a call-site options argument: `false`, `0`
and `undefined` are falsy; any object is truthy. -/
def OptArg.truthy : OptArg → Bool
  | .num n => n != 0
  | .boolean b => b
  | .obj _ => true
  | .undef => false

/-- JavaScript `a || b` on option arguments. -/
def jsOr (a b : OptArg) : OptArg :=
  if a.truthy then a else b

/-- Call-site option resolution as performed by `read`, `write` and
`append`: `inspectOptions(options || $.options, $)` (src/fileio.js lines
85, 116, 199).  `handleOpts` is the handle's `options` property
(`undefined` on a plain File, an object when assigned by a Directory);
`defaults` is the handle's `defaults` record. -/
def resolveCallSite (arg handleOpts : OptArg) (defaults : OptionsRecord) :
    OptionsRecord :=
  inspectOptions (jsOr arg handleOpts) defaults

/-- Cache/timer state of one File handle together with the scheduler
facts needed to talk about armed timers: `cache` and `cacheTimer` are the
object fields (src/fileio.js lines 50-51, both initialised to `null`);
`armed` is the list of timer ids currently pending in the event loop for
this handle; `nextId` generates fresh timer ids for `setTimeout`. -/
structure EngineState where
  cache : Option String
  cacheTimer : Option Nat
  armed : List Nat
  nextId : Nat
deriving Repr, DecidableEq

/-- State of a freshly constructed File handle (src/fileio.js lines
50-51): no cache, no timer. -/
def EngineState.init : EngineState :=
  { cache := none, cacheTimer := none, armed := [], nextId := 0 }

/-- The cache transition block shared verbatim by `read`, `write` and
`append` (src/fileio.js lines 91-98, 121-127 and 205-211): when
`options.cache` holds, store the value, clear the pending timer when
`resetTimer` holds and a timer is set, then arm a fresh timer when
`expires > 0` and no timer remains set. -/
def cacheUpdate (opts : OptionsRecord) (v : String) (s : EngineState) :
    EngineState :=
  if opts.cache then
    let s1 : EngineState := { s with cache := some v }
    let s2 : EngineState :=
      match s1.cacheTimer with
      | some tid =>
          if opts.resetTimer then
            { s1 with armed := s1.armed.erase tid, cacheTimer := none }
          else s1
      | none => s1
    if opts.expires > 0 ∧ s2.cacheTimer = none then
      { s2 with
        cacheTimer := some s2.nextId
        armed := s2.nextId :: s2.armed
        nextId := s2.nextId + 1 }
    else s2
  else s

/-- The value `($.cache || '') + data` appended into the cache by
`File.prototype.append` (src/fileio.js line 206): an absent cache (and an
empty cached string, which is falsy) contributes the empty string. -/
def appendValue (s : EngineState) (data : String) : String :=
  s.cache.getD "" ++ data

/-- Events that mutate a handle's cache/timer state: the success callback
of `read`/`write`/`append` with its resolved options and value, and the
firing of an armed expiration timer. -/
inductive Event where
  | readSuccess : OptionsRecord → String → Event
  | writeSuccess : OptionsRecord → String → Event
  | appendSuccess : OptionsRecord → String → Event
  | timerFire : Nat → Event

/-- One step of the cache/timer engine.  Operation callbacks apply
`cacheUpdate` with the operation's value (`append` concatenates per
src/fileio.js line 206); a timer may fire only while still armed, and its
callback sets both `cache` and `cacheTimer` to `null`
(src/fileio.js lines 94-97). -/
def step (s : EngineState) : Event → Option EngineState
  | .readSuccess opts data => some (cacheUpdate opts data s)
  | .writeSuccess opts data => some (cacheUpdate opts data s)
  | .appendSuccess opts data => some (cacheUpdate opts (appendValue s data) s)
  | .timerFire tid =>
      if tid ∈ s.armed then
        some { cache := none, cacheTimer := none
               armed := s.armed.erase tid, nextId := s.nextId }
      else none

/-- States reachable from a freshly constructed handle by engine steps. -/
inductive Reachable : EngineState → Prop where
  | init : Reachable EngineState.init
  | step {s s' : EngineState} {e : Event} :
      Reachable s → step s e = some s' → Reachable s'

/-- Outcome of a settled promise: the first `resolve`/`reject` call wins,
any later one is ignored. -/
inductive Settled where
  | value : String → Settled
  | error : String → Settled
deriving Repr, DecidableEq

/-- Everything observable about one `read` call: the settled promise
outcome, whether `fs.readFile` was invoked, and the handle state after
the filesystem callback ran. -/
structure ReadResult where
  settled : Settled
  fsReadCalled : Bool
  state : EngineState
deriving Repr, DecidableEq

/-- File.prototype.read (src/fileio.js lines 82-102) with already-resolved
options.  The executor first resolves with the cache whenever it is
non-null (line 88, with no test of `options.fromCache` and no `return`),
then calls `fs.readFile` unconditionally (line 89); the callback applies
the cache transition and calls `resolve`/`reject`, which is a no-op when
the promise already settled.  `fsRead` is the adapter's reply. -/
def fileRead (opts : OptionsRecord) (fsRead : Except String String)
    (s : EngineState) : ReadResult :=
  let pre : Option Settled :=
    match s.cache with
    | some c => some (.value c)
    | none => none
  match fsRead with
  | .error e =>
      { settled := pre.getD (.error e), fsReadCalled := true, state := s }
  | .ok data =>
      { settled := pre.getD (.value data), fsReadCalled := true
        state := cacheUpdate opts data s }

/-- A JavaScript value passed as the `write`/`append` payload: textual,
raw bytes (a Buffer, rendered by its byte content), or any other value
(tagged by a description). -/
inductive WriteData where
  | str : String → WriteData
  | buf : String → WriteData
  | other : String → WriteData
deriving Repr, DecidableEq

/-- The value stored into the cache for a payload: the source stores the
payload itself (`$.cache = data`), modelled by its rendering. -/
def WriteData.render : WriteData → String
  | .str s => s
  | .buf s => s
  | .other s => s

/-- Everything observable about one `write` call: whether a synchronous
error was thrown before the promise was created, the payload handed to
`fs.writeFile` (if it was invoked), the settled outcome and the state
after the callback. -/
structure WriteResult where
  threwSync : Option String
  fsWriteCalledWith : Option WriteData
  settled : Option Settled
  state : EngineState
deriving Repr, DecidableEq

/-- File.prototype.write (src/fileio.js lines 114-132).  The source
performs no validation of `data`: the promise executor runs synchronously
and passes the payload to `fs.writeFile` as given (line 119).  On adapter
success the cache transition runs (lines 121-128) and the promise
resolves to the handle itself (rendered here as the string "self").
`fsWrite` is the adapter's error, or `none` on success. -/
def fileWrite (data : WriteData) (opts : OptionsRecord)
    (fsWrite : Option String) (s : EngineState) : WriteResult :=
  match fsWrite with
  | some e =>
      { threwSync := none, fsWriteCalledWith := some data
        settled := some (.error e), state := s }
  | none =>
      { threwSync := none, fsWriteCalledWith := some data
        settled := some (.value "self")
        state := cacheUpdate opts data.render s }

/-- First argument of `appendFile`: a File handle (with the two fields the
source consults: its `cache` and its `path`), a path string, or a value of
any other type. -/
inductive AppendFileArg where
  | fileHandle : Option String → String → AppendFileArg
  | str : String → AppendFileArg
  | other : String → AppendFileArg
deriving Repr, DecidableEq

/-- The promise returned by `appendFile` when one is returned at all:
read the given source path, then append the retrieved data to the
target. -/
inductive PromisePlan where
  | readThenAppend : String → PromisePlan
deriving Repr, DecidableEq

/-- Everything observable about one `appendFile` call: the returned value
(`none` models the function falling off its end and returning
`undefined`) and whether an error was thrown synchronously. -/
structure AppendFileResult where
  returned : Option PromisePlan
  threwSync : Option String
deriving Repr, DecidableEq

/-- JavaScript truthiness of the `if (file.cache)` test
(src/fileio.js line 235): `null` and the empty string are falsy. -/
def truthyCache : Option String → Bool
  | none => false
  | some c => c ≠ ""

/-- File.prototype.appendFile (src/fileio.js lines 229-241).  For a File
argument with truthy cache the source assigns `data = file.cache` and
then falls off the end of the function with no `return` and no append,
so the caller receives `undefined`.  For a File with falsy cache, or a
string, it returns `file.read().then(data => this.append(data, options))`.
For any other argument it evaluates `new TypeError(...)` without `throw`
or `return` (line 240): the error value is discarded and the caller again
receives `undefined`. -/
def appendFile : AppendFileArg → AppendFileResult
  | .fileHandle c p =>
      if truthyCache c then { returned := none, threwSync := none }
      else { returned := some (.readThenAppend p), threwSync := none }
  | .str p => { returned := some (.readThenAppend p), threwSync := none }
  | .other _ => { returned := none, threwSync := none }

/-- Options with `cache = true` and no expiry, as resolved from a call
such as `append(data, true)`. -/
def optsCacheTrue : OptionsRecord :=
  { cache := true, expires := 0, fromCache := false, resetTimer := true }

/-- Options with `cache = true` and a positive expiry. -/
def optsCacheExpire : OptionsRecord :=
  { cache := true, expires := 5, fromCache := false, resetTimer := true }

/-- Options with `fromCache = true` and everything else at the File
defaults, as resolved from `read({fromCache: true})`. -/
def optsFromCacheOnly : OptionsRecord :=
  { cache := false, expires := 0, fromCache := true, resetTimer := true }

/-- Options with both `fromCache = true` and `cache = true, expires = 5`. -/
def optsFromCacheAndCache : OptionsRecord :=
  { cache := true, expires := 5, fromCache := true, resetTimer := true }

/-- Handle defaults whose `expires` is five milliseconds. -/
def dExpiresFive : OptionsRecord :=
  { cache := false, expires := 5, fromCache := false, resetTimer := true }

/-- A handle state with the string "hello" cached and no timer armed. -/
def sCachedHello : EngineState :=
  { cache := some "hello", cacheTimer := none, armed := [], nextId := 0 }

/-- A handle state with a cached value and one armed expiration timer,
reached from the initial state by a single caching write. -/
def sOneTimer : EngineState :=
  { cache := some "a", cacheTimer := some 0, armed := [0], nextId := 1 }

/-- The separator on which Directory.make's recursive branch splits and
joins paths (src/fileio.js lines 396-397): a backslash. -/
def sepChar : Char := '\\'

/-- JavaScript `p.split('\x5c')` on a path given as a character list:
splitting the empty string yields one empty segment, matching
`''.split` returning `['']`. -/
def splitSeg : List Char → List (List Char)
  | [] => [[]]
  | c :: rest =>
      if c = sepChar then [] :: splitSeg rest
      else
        match splitSeg rest with
        | seg :: segs => (c :: seg) :: segs
        | [] => [[c]]

/-- JavaScript `segs.join('\x5c')`. -/
def joinSeg : List (List Char) → List Char
  | [] => []
  | [seg] => seg
  | seg :: segs => seg ++ sepChar :: joinSeg segs

/-- The parent-path computation of the climb (src/fileio.js lines
396-397): split on the separator, pop the last segment, join back. -/
def parentChars (p : List Char) : List Char :=
  joinSeg (splitSeg p).dropLast

/-- Combined length of the segments of a split path. -/
def segLen (parts : List (List Char)) : Nat :=
  (parts.map List.length).sum

/-- Error kinds reported by the mkdir adapter: the `ENOENT`
missing-parent code tested on src/fileio.js line 394, or any other
code. -/
inductive MkdirErr where
  | enoent : MkdirErr
  | other : String → MkdirErr
deriving Repr, DecidableEq

/-- Reply of one mkdir adapter call. -/
inductive FsReply where
  | ok : FsReply
  | err : MkdirErr → FsReply
deriving Repr, DecidableEq

/-- Outcome of running the climb with bounded fuel. -/
inductive ClimbOut where
  | success : ClimbOut
  | rejected : MkdirErr → ClimbOut
  | outOfFuel : ClimbOut
deriving Repr, DecidableEq

/-- The recursive helper of Directory.make's recursive branch
(src/fileio.js lines 392-407), run against an mkdir adapter with abstract
state `σ`: on `ENOENT` push the current path and retry its parent; on any
other error reject; on success pop and retry the most recently failed
path, or resolve when the stack is empty.  Fuel bounds the number of
adapter calls so that the (possibly non-terminating) recursion is a total
function; `outOfFuel` means the walk had not finished within the given
number of calls. -/
def climbRun {σ : Type} (env : σ → List Char → FsReply × σ) :
    Nat → List Char → List (List Char) → σ → ClimbOut
  | 0, _, _, _ => .outOfFuel
  | n + 1, p, stack, st =>
      match env st p with
      | (.err .enoent, st') => climbRun env n (parentChars p) (p :: stack) st'
      | (.err e, _) => .rejected e
      | (.ok, st') =>
          match stack with
          | q :: rest => climbRun env n q rest st'
          | [] => .success

/-- An adapter that reports missing-parent for every path — the
observable behavior of a POSIX `fs.mkdir` whose current working directory
has been removed, where every climbed path (including the empty path
produced by climbing past the last segment) yields `ENOENT`. -/
def allEnoent : Unit → List Char → FsReply × Unit :=
  fun _ _ => (FsReply.err .enoent, ())

/-- Stateful filesystem model used by the amended termination claim: the
adapter state is the list of existing directories, and the empty path
(the point past the last segment) always exists.  mkdir reports
already-exists for an existing path, creates the directory when its
parent exists, and reports missing-parent otherwise. -/
def mkdirModel : List (List Char) → List Char → FsReply × List (List Char) :=
  fun dirs p =>
    if p = [] ∨ p ∈ dirs then (FsReply.err (.other "EEXIST"), dirs)
    else if parentChars p = [] ∨ parentChars p ∈ dirs then (FsReply.ok, p :: dirs)
    else (FsReply.err .enoent, dirs)

/-- A climb outcome satisfying the claim: success, or rejection with an
error other than missing-parent. -/
def goodOut : ClimbOut → Prop
  | .success => True
  | .rejected e => e ≠ .enoent
  | .outOfFuel => False

/-- Chain invariant of the climb's stack: each stacked path is the child
(by `parentChars`) of the path below it (of the current path, for the
head), is nonempty, and does not yet exist in the model state. -/
def StackInv : List Char → List (List Char) → List (List Char) → Prop
  | _, [], _ => True
  | p, q :: rest, dirs =>
      parentChars q = p ∧ q ≠ [] ∧ q ∉ dirs ∧ StackInv q rest dirs

/-- Engine invariant: the armed-timer list is exactly governed by the
`cacheTimer` field — empty when it is `null`, the singleton of the stored
id otherwise. -/
def Inv (s : EngineState) : Prop :=
  match s.cacheTimer with
  | none => s.armed = []
  | some tid => s.armed = [tid]

theorem inv_init : Inv EngineState.init := by
  simp [Inv, EngineState.init]

theorem inv_cacheUpdate (opts : OptionsRecord) (v : String)
    (s : EngineState) (h : Inv s) : Inv (cacheUpdate opts v s) := by
  unfold cacheUpdate
  by_cases hc : opts.cache
  · simp only [hc, if_true]
    cases htimer : s.cacheTimer with
    | none =>
        have harmed : s.armed = [] := by simpa [Inv, htimer] using h
        by_cases hr : opts.expires > 0
        · simp [htimer, hr, harmed, Inv]
        · simp [htimer, hr, harmed, Inv]
    | some tid =>
        have harmed : s.armed = [tid] := by simpa [Inv, htimer] using h
        by_cases hrt : opts.resetTimer
        · by_cases hr : opts.expires > 0
          · simp [htimer, hrt, hr, harmed, Inv, List.erase]
          · simp [htimer, hrt, hr, harmed, Inv, List.erase]
        · simp [htimer, hrt, Inv, harmed]
  · simp [hc, h]

theorem inv_step {s s' : EngineState} {e : Event} (h : Inv s)
    (hs : step s e = some s') : Inv s' := by
  cases e with
  | readSuccess opts data =>
      cases hs; exact inv_cacheUpdate opts data s h
  | writeSuccess opts data =>
      cases hs; exact inv_cacheUpdate opts data s h
  | appendSuccess opts data =>
      cases hs; exact inv_cacheUpdate opts (appendValue s data) s h
  | timerFire tid =>
      unfold step at hs
      by_cases hmem : tid ∈ s.armed
      · simp only [hmem, if_true, Option.some.injEq] at hs
        subst hs
        cases htimer : s.cacheTimer with
        | none =>
            have : s.armed = [] := by simpa [Inv, htimer] using h
            simp [this] at hmem
        | some tid' =>
            have harmed : s.armed = [tid'] := by simpa [Inv, htimer] using h
            have : tid = tid' := by simpa [harmed] using hmem
            subst this
            simp [Inv, harmed, List.erase]
      · simp [hmem] at hs

theorem inv_reachable {s : EngineState} (h : Reachable s) : Inv s := by
  induction h with
  | init => exact inv_init
  | step hr hs ih => exact inv_step ih hs

theorem inv_armed_length {s : EngineState} (h : Inv s) :
    s.armed.length ≤ 1 := by
  cases ht : s.cacheTimer with
  | none =>
      have harmed : s.armed = [] := by simpa [Inv, ht] using h
      simp [harmed]
  | some tid =>
      have harmed : s.armed = [tid] := by simpa [Inv, ht] using h
      simp [harmed]

theorem cacheUpdate_cache (opts : OptionsRecord) (v : String)
    (s : EngineState) :
    (cacheUpdate opts v s).cache = if opts.cache then some v else s.cache := by
  unfold cacheUpdate
  by_cases hc : opts.cache
  · simp only [hc, if_true]
    cases htimer : s.cacheTimer with
    | none =>
        by_cases hr : opts.expires > 0
        · simp [htimer, hr]
        · simp [htimer, hr]
    | some tid =>
        by_cases hrt : opts.resetTimer
        · by_cases hr : opts.expires > 0
          · simp [htimer, hrt, hr]
          · simp [htimer, hrt, hr]
        · simp [htimer, hrt]
  · simp [hc]

theorem sOneTimer_step :
    step EngineState.init (.writeSuccess optsCacheExpire "a") =
      some sOneTimer := by
  decide

theorem sOneTimer_reachable : Reachable sOneTimer :=
  Reachable.step Reachable.init sOneTimer_step

/-- C5: over every reachable handle state, at most one expiration timer is
armed, and whenever a step arms a timer id that was not armed before, the
new id is the only armed timer and is the one stored in `cacheTimer` —
i.e. a new timer is only scheduled once no other timer is armed. -/
theorem timer_exclusivity (s : EngineState) (h : Reachable s) :
    s.armed.length ≤ 1 ∧
    ∀ e s', step s e = some s' →
      s'.armed.length ≤ 1 ∧
      ∀ tid, tid ∈ s'.armed → tid ∉ s.armed →
        s'.armed = [tid] ∧ s'.cacheTimer = some tid := by
  have hinv := inv_reachable h
  refine ⟨inv_armed_length hinv, ?_⟩
  intro e s' hs
  have hinv' := inv_step hinv hs
  refine ⟨inv_armed_length hinv', ?_⟩
  intro tid hmem hnew
  cases ht : s'.cacheTimer with
  | none =>
      have harmed : s'.armed = [] := by simpa [Inv, ht] using hinv'
      rw [harmed] at hmem
      simp at hmem
  | some tid' =>
      have harmed : s'.armed = [tid'] := by simpa [Inv, ht] using hinv'
      rw [harmed] at hmem
      simp at hmem
      subst hmem
      exact ⟨harmed, rfl⟩

/-- Witness for C5 at the concrete reachable state with one armed timer. -/
theorem timer_exclusivity_witness :
    sOneTimer.armed.length ≤ 1 ∧
    ∀ e s', step sOneTimer e = some s' →
      s'.armed.length ≤ 1 ∧
      ∀ tid, tid ∈ s'.armed → tid ∉ sOneTimer.armed →
        s'.armed = [tid] ∧ s'.cacheTimer = some tid :=
  timer_exclusivity sOneTimer sOneTimer_reachable

/-- C6: a successful read, write or append whose resolved options have
`cache = false` leaves the handle state — in particular `cache` and
`cacheTimer` — exactly as it was. -/
theorem uncached_op_frame (s : EngineState) (opts : OptionsRecord)
    (d : String) (h : opts.cache = false) :
    step s (.readSuccess opts d) = some s ∧
    step s (.writeSuccess opts d) = some s ∧
    step s (.appendSuccess opts d) = some s := by
  unfold step cacheUpdate
  simp [h]

/-- Witness for C6 at a concrete state carrying a prior cache and timer. -/
theorem uncached_op_frame_witness :
    step sOneTimer (.readSuccess defaultOptions "x") = some sOneTimer ∧
    step sOneTimer (.writeSuccess defaultOptions "x") = some sOneTimer ∧
    step sOneTimer (.appendSuccess defaultOptions "x") = some sOneTimer :=
  uncached_op_frame sOneTimer defaultOptions "x" rfl

/-- C8: from a reachable state with a populated cache and an armed timer,
the timer firing yields the Empty state (`cache` and `cacheTimer` both
null, nothing armed), and no read/write/append success can empty a
populated cache — firing is the only transition out of Cached-Expiring
that leaves the cache absent. -/
theorem expiration_to_empty (s : EngineState) (tid : Nat) (v : String)
    (h : Reachable s) (hc : s.cache = some v) (ht : s.cacheTimer = some tid) :
    step s (.timerFire tid) =
      some { cache := none, cacheTimer := none, armed := []
             nextId := s.nextId } ∧
    (∀ opts d s', step s (.readSuccess opts d) = some s' →
      s'.cache ≠ none) ∧
    (∀ opts d s', step s (.writeSuccess opts d) = some s' →
      s'.cache ≠ none) ∧
    (∀ opts d s', step s (.appendSuccess opts d) = some s' →
      s'.cache ≠ none) := by
  have hinv := inv_reachable h
  have harmed : s.armed = [tid] := by simpa [Inv, ht] using hinv
  refine ⟨?_, ?_, ?_, ?_⟩
  · unfold step
    simp [harmed]
  all_goals
    intro opts d s' hs
    unfold step at hs
    injection hs with hs
    subst hs
    rw [cacheUpdate_cache]
    by_cases hco : opts.cache
    · simp [hco]
    · simp [hco, hc]

/-- Witness for C8 at the concrete Cached-Expiring state. -/
theorem expiration_to_empty_witness :
    step sOneTimer (.timerFire 0) =
      some { cache := none, cacheTimer := none, armed := []
             nextId := sOneTimer.nextId } ∧
    (∀ opts d s', step sOneTimer (.readSuccess opts d) = some s' →
      s'.cache ≠ none) ∧
    (∀ opts d s', step sOneTimer (.writeSuccess opts d) = some s' →
      s'.cache ≠ none) ∧
    (∀ opts d s', step sOneTimer (.appendSuccess opts d) = some s' →
      s'.cache ≠ none) :=
  expiration_to_empty sOneTimer 0 "a" sOneTimer_reachable rfl rfl

/-- C2 counterexample: an append with `cache = true` on a handle whose
cache is absent does initialize the cache — afterwards it holds exactly
the appended data, not the absent value the claim requires. -/
theorem append_absent_cache_initialized :
    EngineState.init.cache = none ∧
    step EngineState.init (.appendSuccess optsCacheTrue "x") =
      some { cache := some "x", cacheTimer := none, armed := []
             nextId := 0 } := by
  exact ⟨rfl, by decide⟩

/-- C2 amended: a successful append with `cache = true` always stores the
prior cache (the empty string when it was absent or empty, matching
`($.cache || '') + data`) concatenated with the new data. -/
theorem append_cache_concat (s : EngineState) (opts : OptionsRecord)
    (d : String) (h : opts.cache = true) :
    ∀ s', step s (.appendSuccess opts d) = some s' →
      s'.cache = some (s.cache.getD "" ++ d) := by
  intro s' hs
  unfold step at hs
  injection hs with hs
  subst hs
  rw [cacheUpdate_cache]
  simp [h, appendValue]

/-- Witness for C2's amended claim on an initially uncached handle. -/
theorem append_cache_concat_witness :
    (step EngineState.init (.appendSuccess optsCacheTrue "x")).map
        EngineState.cache =
      some (some (EngineState.init.cache.getD "" ++ "x")) := by
  have h := append_cache_concat EngineState.init optsCacheTrue "x" rfl
  cases hs : step EngineState.init (.appendSuccess optsCacheTrue "x") with
  | none => exact absurd hs (by decide)
  | some s' => simp [h s' hs]

/-- C1: the failing input for the fromCache short-circuit.  On a handle
with cache "hello", a read whose resolved options have `fromCache = true`
does resolve with "hello", but the filesystem adapter IS invoked
(`fs.readFile` is called unconditionally on src/fileio.js line 89 and
`options.fromCache` is never consulted), and with `cache = true` in the
resolved options the cache/timer state is rewritten by the callback. -/
theorem read_fromCache_still_reads_fs :
    fileRead optsFromCacheOnly (.ok "disk") sCachedHello =
      { settled := .value "hello", fsReadCalled := true
        state := sCachedHello } ∧
    (fileRead optsFromCacheAndCache (.ok "disk") sCachedHello).state =
      { cache := some "disk", cacheTimer := some 0, armed := [0]
        nextId := 1 } := by
  decide

/-- C4 counterexample: a write whose payload is neither a string nor a
Buffer throws nothing synchronously and hands the payload to
`fs.writeFile` — the filesystem call is attempted. -/
theorem write_invalid_payload_no_sync_error :
    (fileWrite (.other "plain-object") defaultOptions none
        EngineState.init).threwSync = none ∧
    (fileWrite (.other "plain-object") defaultOptions none
        EngineState.init).fsWriteCalledWith = some (.other "plain-object") := by
  exact ⟨rfl, rfl⟩

/-- C4 amended: `write` performs no type validation at all — for every
payload (textual, binary or otherwise) it throws nothing synchronously
and always invokes `fs.writeFile` with the payload as given; a type
failure can only surface through the adapter's asynchronous error
channel. -/
theorem write_no_validation (data : WriteData) (opts : OptionsRecord)
    (fsWrite : Option String) (s : EngineState) :
    (fileWrite data opts fsWrite s).threwSync = none ∧
    (fileWrite data opts fsWrite s).fsWriteCalledWith = some data := by
  cases fsWrite <;> exact ⟨rfl, rfl⟩

/-- C3: the failing input for appendFile with a cached source.  When the
source handle's cache is the (truthy) string "foo", `appendFile` returns
`undefined`: no promise is returned, nothing is appended, no filesystem
call of any kind is planned, and nothing is thrown. -/
theorem appendFile_cached_source_returns_undefined :
    appendFile (.fileHandle (some "foo") "src.txt") =
      { returned := none, threwSync := none } := by
  decide

/-- C10: for every first argument that is neither a File handle nor a
string, `appendFile` returns `undefined` (no promise), and the TypeError
it constructs is neither thrown synchronously nor delivered through any
failure channel. -/
theorem appendFile_invalid_arg_undefined (tag : String) :
    appendFile (.other tag) = { returned := none, threwSync := none } :=
  rfl

/-- C7 counterexample: at the call site, a raw `false` resolves against a
handle whose default `cache` is `true` to a record with `cache = true`
(not `false`), and a raw `0` resolves against defaults with `expires = 5`
to a record with `expires = 5` and `cache = false` (not `cache = true`,
`expires = 0`): both falsy shorthands are discarded by the
`options || this.options` guard. -/
theorem falsy_shorthand_discarded :
    (resolveCallSite (.boolean false) .undef optsCacheTrue).cache = true ∧
    (resolveCallSite (.num 0) .undef dExpiresFive).expires = 5 ∧
    (resolveCallSite (.num 0) .undef dExpiresFive).cache = false := by
  decide

/-- C7 amended: a truthy shorthand behaves as specified — `true` yields
the defaults with `cache = true`, a nonzero number `n` yields `cache =
true, expires = n`, and an object overlays its own keys — but the falsy
shorthands `false` and `0` are discarded by the call site's
`options || this.options` guard and resolve exactly as an absent
argument, i.e. from the handle's `options` property over its defaults. -/
theorem shorthand_resolution (n : Int) (p : PartialOptions)
    (h : OptArg) (d : OptionsRecord) (hn : n ≠ 0) :
    resolveCallSite (.num n) h d = { d with cache := true, expires := n } ∧
    resolveCallSite (.boolean true) h d = { d with cache := true } ∧
    resolveCallSite (.obj p) h d = overlay p d ∧
    resolveCallSite (.boolean false) h d = inspectOptions h d ∧
    resolveCallSite (.num 0) h d = inspectOptions h d := by
  refine ⟨?_, rfl, rfl, rfl, rfl⟩
  simp [resolveCallSite, jsOr, OptArg.truthy, inspectOptions, hn]

theorem splitSeg_ne_nil : ∀ l : List Char, splitSeg l ≠ [] := by
  intro l
  cases l with
  | nil => simp [splitSeg]
  | cons c rest =>
      unfold splitSeg
      by_cases hc : c = sepChar
      · simp [hc]
      · simp only [if_neg hc]
        cases h : splitSeg rest with
        | nil => simp
        | cons seg segs => simp

theorem split_length_sum :
    ∀ l : List Char, segLen (splitSeg l) + (splitSeg l).length = l.length + 1 := by
  intro l
  induction l with
  | nil => rfl
  | cons c rest ih =>
      unfold splitSeg
      by_cases hc : c = sepChar
      · simp only [if_pos hc]
        simp [segLen] at ih ⊢
        omega
      · simp only [if_neg hc]
        cases h : splitSeg rest with
        | nil => exact absurd h (splitSeg_ne_nil rest)
        | cons seg segs =>
            rw [h] at ih
            simp [segLen] at ih ⊢
            omega

theorem join_length :
    ∀ parts : List (List Char), parts ≠ [] →
      (joinSeg parts).length + 1 = segLen parts + parts.length := by
  intro parts
  induction parts with
  | nil => intro h; exact absurd rfl h
  | cons s ss ih =>
      intro _
      cases ss with
      | nil => simp [joinSeg, segLen]
      | cons t ts =>
          have hne : (t :: ts : List (List Char)) ≠ [] := by simp
          have ih' := ih hne
          simp [joinSeg, segLen] at ih' ⊢
          omega

theorem segLen_dropLast :
    ∀ parts : List (List Char), segLen parts.dropLast ≤ segLen parts := by
  intro parts
  induction parts with
  | nil => simp [segLen]
  | cons s ss ih =>
      cases ss with
      | nil => simp [segLen, List.dropLast]
      | cons t ts =>
          show segLen (s :: (t :: ts).dropLast) ≤ segLen (s :: t :: ts)
          simp [segLen] at ih ⊢
          omega

theorem parentChars_length (p : List Char) (hp : p ≠ []) :
    (parentChars p).length < p.length := by
  have hplen : 0 < p.length := List.length_pos.mpr hp
  cases hd : (splitSeg p).dropLast with
  | nil =>
      unfold parentChars
      rw [hd]
      simpa [joinSeg] using hplen
  | cons d ds =>
      have hne : (splitSeg p).dropLast ≠ [] := by rw [hd]; simp
      have h1 := join_length (splitSeg p).dropLast hne
      have h2 := split_length_sum p
      have h3 := segLen_dropLast (splitSeg p)
      have h4 : (splitSeg p).dropLast.length + 1 = (splitSeg p).length := by
        rw [List.length_dropLast]
        have hpos : 0 < (splitSeg p).length :=
          List.length_pos.mpr (splitSeg_ne_nil p)
        omega
      unfold parentChars
      omega

theorem parentChars_nil : parentChars [] = [] := rfl

theorem climb_allEnoent_empty (n : Nat) :
    ∀ stack, climbRun allEnoent n [] stack () = .outOfFuel := by
  induction n with
  | zero => intro stack; rfl
  | succ n ih =>
      intro stack
      show climbRun allEnoent n (parentChars []) ([] :: stack) () = .outOfFuel
      rw [parentChars_nil]
      exact ih ([] :: stack)

/-- C9 counterexample: against an adapter that reports missing-parent for
every path — e.g. a POSIX `fs.mkdir` whose working directory was removed,
which answers `ENOENT` for the requested path and for every ancestor
including the empty path that climbing past the last segment produces —
the recursive walk of Directory.make never finishes: for no number of
adapter calls does it resolve or reject. -/
theorem make_recursive_nonterminating :
    ¬ ∃ n : Nat, climbRun allEnoent n ['a'] [] () ≠ .outOfFuel := by
  rintro ⟨n, hn⟩
  apply hn
  cases n with
  | zero => rfl
  | succ n =>
      show climbRun allEnoent n (parentChars ['a']) (['a'] :: []) () = .outOfFuel
      have hpa : parentChars ['a'] = [] := by decide
      rw [hpa]
      exact climb_allEnoent_empty n _

theorem climb_never_rejects_enoent {σ : Type}
    (env : σ → List Char → FsReply × σ) :
    ∀ (n : Nat) (p : List Char) (stack : List (List Char)) (st : σ),
      climbRun env n p stack st ≠ .rejected .enoent := by
  intro n
  induction n with
  | zero =>
      intro p stack st h
      simp [climbRun] at h
  | succ n ih =>
      intro p stack st h
      unfold climbRun at h
      rcases henv : env st p with ⟨reply, st'⟩
      rw [henv] at h
      cases reply with
      | ok =>
          cases stack with
          | nil => simp at h
          | cons q rest => exact ih q rest st' h
      | err e =>
          cases e with
          | enoent => exact ih (parentChars p) (p :: stack) st' h
          | other msg => simp at h

theorem stackInv_cons (x : List Char) :
    ∀ (stack : List (List Char)) (p : List Char) (dirs : List (List Char)),
      StackInv p stack dirs → x.length ≤ p.length →
      StackInv p stack (x :: dirs) := by
  intro stack
  induction stack with
  | nil => intro p dirs _ _; trivial
  | cons q rest ih =>
      intro p dirs h hx
      obtain ⟨hpq, hqe, hqd, hrest⟩ := h
      have hlen : p.length < q.length := by
        have hq := parentChars_length q hqe
        rw [hpq] at hq
        exact hq
      refine ⟨hpq, hqe, ?_, ih q dirs hrest (le_of_lt (lt_of_le_of_lt hx hlen))⟩
      intro hmem
      rcases List.mem_cons.mp hmem with he | hm
      · rw [he] at hlen; omega
      · exact hqd hm

theorem climb_descent :
    ∀ (stack : List (List Char)) (q : List Char) (dirs : List (List Char)),
      q ∉ dirs → q ≠ [] →
      (parentChars q = [] ∨ parentChars q ∈ dirs) →
      StackInv q stack dirs →
      goodOut (climbRun mkdirModel (stack.length + 1) q stack dirs) := by
  intro stack
  induction stack with
  | nil =>
      intro q dirs hq hqe hpar _
      have hmk : mkdirModel dirs q = (FsReply.ok, q :: dirs) := by
        have hc1 : ¬ (q = [] ∨ q ∈ dirs) := by push_neg; exact ⟨hqe, hq⟩
        simp only [mkdirModel]
        rw [if_neg hc1, if_pos hpar]
      unfold climbRun
      rw [hmk]
      trivial
  | cons q' rest ih =>
      intro q dirs hq hqe hpar hstack
      obtain ⟨hpq', hq'e, hq'd, hrest⟩ := hstack
      have hmk : mkdirModel dirs q = (FsReply.ok, q :: dirs) := by
        have hc1 : ¬ (q = [] ∨ q ∈ dirs) := by push_neg; exact ⟨hqe, hq⟩
        simp only [mkdirModel]
        rw [if_neg hc1, if_pos hpar]
      have hlen : q.length < q'.length := by
        have hq2 := parentChars_length q' hq'e
        rw [hpq'] at hq2
        exact hq2
      have hq'q : q' ≠ q := by intro he; rw [he] at hlen; omega
      have hdes := ih q' (q :: dirs)
        (by intro hmem
            rcases List.mem_cons.mp hmem with he | hm
            exacts [hq'q he, hq'd hm])
        hq'e
        (Or.inr (by rw [hpq']; exact List.mem_cons_self q dirs))
        (stackInv_cons q rest q' dirs hrest (le_of_lt hlen))
      show goodOut (climbRun mkdirModel (rest.length + 1 + 1) q (q' :: rest) dirs)
      unfold climbRun
      rw [hmk]
      exact hdes

theorem climb_terminates_aux :
    ∀ (N : Nat) (p : List Char), p.length ≤ N →
      ∀ (stack : List (List Char)) (dirs : List (List Char)),
        StackInv p stack dirs →
        ∃ n, goodOut (climbRun mkdirModel n p stack dirs) := by
  intro N
  induction N with
  | zero =>
      intro p hp stack dirs _
      have hpe : p = [] := by
        cases p with
        | nil => rfl
        | cons a as => simp at hp
      subst hpe
      refine ⟨1, ?_⟩
      unfold climbRun
      have hmk : mkdirModel dirs [] = (FsReply.err (.other "EEXIST"), dirs) := by
        simp [mkdirModel]
      rw [hmk]
      simp [goodOut]
  | succ N ih =>
      intro p hp stack dirs hstack
      by_cases hpe : p = []
      · subst hpe
        refine ⟨1, ?_⟩
        unfold climbRun
        have hmk : mkdirModel dirs [] = (FsReply.err (.other "EEXIST"), dirs) := by
          simp [mkdirModel]
        rw [hmk]
        simp [goodOut]
      · by_cases hpd : p ∈ dirs
        · refine ⟨1, ?_⟩
          unfold climbRun
          have hmk : mkdirModel dirs p = (FsReply.err (.other "EEXIST"), dirs) := by
            simp [mkdirModel, hpd]
          rw [hmk]
          simp [goodOut]
        · by_cases hpar : parentChars p = [] ∨ parentChars p ∈ dirs
          · have hmk : mkdirModel dirs p = (FsReply.ok, p :: dirs) := by
              have hc1 : ¬ (p = [] ∨ p ∈ dirs) := by push_neg; exact ⟨hpe, hpd⟩
              simp only [mkdirModel]
              rw [if_neg hc1, if_pos hpar]
            cases stack with
            | nil =>
                refine ⟨1, ?_⟩
                unfold climbRun
                rw [hmk]
                trivial
            | cons q rest =>
                obtain ⟨hpq, hqe, hqd, hrest⟩ := hstack
                have hlen : p.length < q.length := by
                  have hq2 := parentChars_length q hqe
                  rw [hpq] at hq2
                  exact hq2
                have hqp : q ≠ p := by intro he; rw [he] at hlen; omega
                have hdes := climb_descent rest q (p :: dirs)
                  (by intro hmem
                      rcases List.mem_cons.mp hmem with he | hm
                      exacts [hqp he, hqd hm])
                  hqe
                  (Or.inr (by rw [hpq]; exact List.mem_cons_self p dirs))
                  (stackInv_cons p rest q dirs hrest (le_of_lt hlen))
                refine ⟨rest.length + 1 + 1, ?_⟩
                unfold climbRun
                rw [hmk]
                exact hdes
          · push_neg at hpar
            obtain ⟨hparne, hparnd⟩ := hpar
            have hlt : (parentChars p).length < p.length :=
              parentChars_length p hpe
            have hple : (parentChars p).length ≤ N := by omega
            have hnext : StackInv (parentChars p) (p :: stack) dirs :=
              ⟨rfl, hpe, hpd, hstack⟩
            obtain ⟨n, hn⟩ := ih (parentChars p) hple (p :: stack) dirs hnext
            refine ⟨n + 1, ?_⟩
            unfold climbRun
            have hmk : mkdirModel dirs p = (FsReply.err .enoent, dirs) := by
              have hc1 : ¬ (p = [] ∨ p ∈ dirs) := by push_neg; exact ⟨hpe, hpd⟩
              have hc2 : ¬ (parentChars p = [] ∨ parentChars p ∈ dirs) := by
                push_neg; exact ⟨hparne, hparnd⟩
              simp only [mkdirModel]
              rw [if_neg hc1, if_neg hc2]
            rw [hmk]
            exact hn

/-- C9 amended: against the stateful filesystem model — mkdir creates a
directory when its parent exists, reports already-exists for an existing
path, missing-parent otherwise, with the empty path (past the last
segment) always existing — the path-climbing walk started on any path and
any filesystem state terminates, in success or in a rejection, and for
every adapter whatsoever a rejection never carries the missing-parent
error.  (Without such an assumption on the adapter termination fails: see
the counterexample, where an adapter answering missing-parent everywhere
makes the walk run forever.) -/
theorem make_recursive_terminates (p : List Char)
    (dirs : List (List Char)) :
    (∃ n, goodOut (climbRun mkdirModel n p [] dirs)) ∧
    ∀ (σ : Type) (env : σ → List Char → FsReply × σ) (n : Nat)
      (stack : List (List Char)) (st : σ),
      climbRun env n p stack st ≠ .rejected .enoent := by
  constructor
  · exact climb_terminates_aux p.length p le_rfl [] dirs trivial
  · intro σ env n stack st
    exact climb_never_rejects_enoent env n p stack st

/-- Witness for C7's amended claim at a concrete nonzero number. -/
theorem shorthand_resolution_witness :
    resolveCallSite (.num 2) .undef defaultOptions =
      { defaultOptions with cache := true, expires := 2 } ∧
    resolveCallSite (.boolean false) .undef defaultOptions =
      inspectOptions .undef defaultOptions :=
  ⟨(shorthand_resolution 2 ⟨none, none, none, none⟩ .undef defaultOptions
      (by decide)).1,
   (shorthand_resolution 2 ⟨none, none, none, none⟩ .undef defaultOptions
      (by decide)).2.2.2.1⟩

end FileioModel
